import Mathlib

/-!
Verification of `scripts/python/ecr_delete_push_images.py`, a one-shot
utility that discovers ECR repositories by name, ranks each repository's
three most recently pushed tags, and runs a pull → delete → push refresh
cycle on every selected tag.

The Python source is shallowly embedded: each Python function becomes a
Lean definition over explicit data (API pages, image records, a `World`
of external-call outcomes), and the claims of the specification are
proved as theorems about those definitions.
-/

/-- An entry of `imageDetails` as consumed by the script.
`imagePushedAt` models the push timestamp (`.get("imagePushedAt", 0)`
defaults a missing value to `0`); `imageTags` models the tag list
(`.get("imageTags", [])` defaults a missing value to `[]`). -/
structure Image where
  imagePushedAt : Option Nat
  imageTags : Option (List String)
deriving DecidableEq, Repr

/-- The sort key used in `images.sort(key=lambda x: x.get("imagePushedAt", 0), reverse=True)`. -/
def pushKey (img : Image) : Nat :=
  img.imagePushedAt.getD 0

/-- The descending-by-push-time order: `a` comes no later than `b`. -/
def pushDescR (a b : Image) : Prop :=
  pushKey b ≤ pushKey a

instance : DecidableRel pushDescR :=
  fun a b => inferInstanceAs (Decidable (pushKey b ≤ pushKey a))

instance : IsTotal Image pushDescR :=
  ⟨fun a b => Nat.le_total (pushKey b) (pushKey a)⟩

instance : IsTrans Image pushDescR :=
  ⟨fun _ _ _ h1 h2 => Nat.le_trans h2 h1⟩

/-- `images.sort(key=..., reverse=True)`: a stable sort, descending on `pushKey`. -/
def sortByPushDesc (images : List Image) : List Image :=
  List.insertionSort pushDescR images

/-- One step of the tag-collection loop:
`if t not in tags: tags.append(t)`. -/
def addTag (acc : List String) (t : String) : List String :=
  if t ∈ acc then acc else acc ++ [t]

/-- The inner loop of `get_last_three_tags` over one image's tag list:
append each unseen tag and break as soon as the list reaches 3. -/
def collectFromTags : List String → List String → List String
  | [], acc => acc
  | t :: ts, acc =>
    let acc' := addTag acc t
    if acc'.length = 3 then acc' else collectFromTags ts acc'

/-- The outer loop of `get_last_three_tags` over the sorted images:
walk each image's tags (a missing tag list contributes `[]`), breaking
as soon as 3 distinct tags are collected. -/
def collectTags : List Image → List String → List String
  | [], acc => acc
  | img :: rest, acc =>
    let acc' := collectFromTags (img.imageTags.getD []) acc
    if acc'.length = 3 then acc' else collectTags rest acc'

/-- The body of `get_last_three_tags` after the pages of
`describe_images` have been accumulated into `images`. -/
def getLastThreeTagsBody (images : List Image) : List String :=
  if images.isEmpty then []
  else collectTags (sortByPushDesc images) []

/-- `get_last_three_tags(ecr, repo_name)`: the registry either fails
(`BotoCoreError`/`ClientError`, caught and turned into `[]`) or returns
the accumulated `imageDetails` of all pages. -/
def get_last_three_tags : Except Unit (List Image) → List String
  | Except.error _ => []
  | Except.ok images => getLastThreeTagsBody images

/-- All tag names carried by a list of images, in walk order. -/
def allTags (images : List Image) : List String :=
  (images.map (fun img => img.imageTags.getD [])).flatten

/-- The unbounded dedup walk: fold `addTag` over every tag of every
image, never stopping.  The real collection loop is `take 3` of this. -/
def walkImages (images : List Image) (acc : List String) : List String :=
  images.foldl (fun a img => (img.imageTags.getD []).foldl addTag a) acc

/-! ### Repository discovery -/

/-- Python `name.startswith(pfx)`: the code points of `pfx` are an
initial segment of the code points of `name` (exact, case-sensitive). -/
def startswith (name pfx : String) : Bool :=
  pfx.data.isPrefixOf name.data

/-- One step of the discovery loop over a page entry (a repository
record modelled by its optional `repositoryName` field):
`name = repo.get("repositoryName", ""); if name.startswith(pfx): repos.append(name)`. -/
def repoStep (pfx : String) (repos : List String) (repo : Option String) : List String :=
  let name := repo.getD ""
  if startswith name pfx then repos ++ [name] else repos

/-- `get_repositories_with_prefix(ecr, pfx)`: walk every page of
`describe_repositories`, appending each repository name that starts
with the given pfx string. -/
def get_repositories_with_prefix (pages : List (List (Option String))) (pfx : String) :
    List String :=
  pages.foldl (fun repos page => page.foldl (repoStep pfx) repos) []

/-! ### Tag refresh worker -/

/-- Outcomes of the three external calls a live refresh can make:
`docker pull`, `ecr.batch_delete_image`, `docker push`. -/
structure TagEnv where
  pullOk : Bool
  deleteOk : Bool
  pushOk : Bool
deriving DecidableEq, Repr

/-- What one call of `process_tag` returned and which external calls
it issued. -/
structure TagOutcome where
  ok : Bool
  reason : String
  uri : String
  pullAttempted : Bool
  deleteAttempted : Bool
  pushAttempted : Bool
deriving DecidableEq, Repr

/-- The image reference
`f"{account_id}.dkr.ecr.{region}.amazonaws.com/{repo_name}:{tag}"`. -/
def image_uri (account_id region repo_name tag : String) : String :=
  account_id ++ ".dkr.ecr." ++ region ++ ".amazonaws.com/" ++ repo_name ++ ":" ++ tag

/-- `process_tag(ecr, repo_name, tag, account_id, region, dry_run)`:
pull → delete → push, each step gated on the previous one, with the
dry-run short circuit before any external call. -/
def process_tag (env : TagEnv) (repo_name tag account_id region : String)
    (dry_run : Bool) : TagOutcome :=
  let uri := image_uri account_id region repo_name tag
  if dry_run then
    { ok := true, reason := "dry-run", uri := uri,
      pullAttempted := false, deleteAttempted := false, pushAttempted := false }
  else if env.pullOk = false then
    { ok := false, reason := "pull-failed", uri := uri,
      pullAttempted := true, deleteAttempted := false, pushAttempted := false }
  else if env.deleteOk = false then
    { ok := false, reason := "delete-failed", uri := uri,
      pullAttempted := true, deleteAttempted := true, pushAttempted := false }
  else if env.pushOk = false then
    { ok := false, reason := "push-failed", uri := uri,
      pullAttempted := true, deleteAttempted := true, pushAttempted := true }
  else
    { ok := true, reason := "ok", uri := uri,
      pullAttempted := true, deleteAttempted := true, pushAttempted := true }

/-! ### Orchestrator (`main`) -/

/-- The Python exception relevant to `main`'s control flow:
`subprocess.CalledProcessError` raised by `docker_login`. -/
inductive PyExn where
  | calledProcessError
deriving DecidableEq, Repr

/-- `docker_login(account_id, region, profile)`: both
`aws ecr get-login-password` and `docker login` run with `check=True`;
a failure raises `CalledProcessError`. -/
def docker_login (loginOk : Bool) : Except PyExn Unit :=
  if loginOk then Except.ok () else Except.error PyExn.calledProcessError

/-- The external environment of one run: whether the two login
subprocesses succeed, the pages of `describe_repositories`, the result
of listing each repository's images, and the outcome of the external
calls for each (repository, tag) pair. -/
structure World where
  loginOk : Bool
  pages : List (List (Option String))
  listImages : String → Except Unit (List Image)
  tagEnv : String → String → TagEnv

/-- The four counters accumulated by `main`'s loop. -/
structure Counters where
  total_repos : Nat
  total_tags : Nat
  successes : Nat
  failures : Nat
deriving DecidableEq, Repr

/-- The body of `main`'s inner loop (`for tag in tags`). -/
def tagStep (w : World) (repo account_id region : String) (dry_run : Bool)
    (c : Counters) (tag : String) : Counters :=
  let c1 := { c with total_tags := c.total_tags + 1 }
  let r := process_tag (w.tagEnv repo tag) repo tag account_id region dry_run
  if r.ok then { c1 with successes := c1.successes + 1 }
  else { c1 with failures := c1.failures + 1 }

/-- The body of `main`'s outer loop (`for repo in repos`): rank the
repository's tags, skip it when the ranking is empty, otherwise count
it and process each ranked tag. -/
def processRepo (w : World) (account_id region : String) (dry_run : Bool)
    (c : Counters) (repo : String) : Counters :=
  let tags := get_last_three_tags (w.listImages repo)
  if tags.isEmpty then c
  else
    tags.foldl (tagStep w repo account_id region dry_run)
      { c with total_repos := c.total_repos + 1 }

/-- What a completed (non-aborted) run produced. -/
structure RunResult where
  aborted : Bool
  discovered : Option (List String)
  counters : Counters
deriving DecidableEq, Repr

/-- Discovery plus the counting loops of `main`, reached only after the
login precondition (or in dry-run mode). -/
def mainLoop (w : World) (pfx account_id region : String) (dry_run : Bool) : RunResult :=
  let repos := get_repositories_with_prefix w.pages pfx
  { aborted := false
    discovered := some repos
    counters := repos.foldl (processRepo w account_id region dry_run) ⟨0, 0, 0, 0⟩ }

/-- How the Python process's `main()` call ends. -/
inductive PyTermination where
  | normalReturn (r : RunResult)
  | unhandledException (e : PyExn)
deriving DecidableEq, Repr

/-- `main()`: in live mode `docker_login` runs inside
`try/except CalledProcessError`; on failure `main` logs critically and
returns before any repository work, otherwise (and always in dry-run
mode) the discovery and processing loops run to the summary. -/
def main_termination (w : World) (pfx account_id region : String)
    (dry_run : Bool) : PyTermination :=
  if dry_run then PyTermination.normalReturn (mainLoop w pfx account_id region dry_run)
  else
    match docker_login w.loginOk with
    | Except.error _ =>
      PyTermination.normalReturn
        { aborted := true, discovered := none, counters := ⟨0, 0, 0, 0⟩ }
    | Except.ok _ =>
      PyTermination.normalReturn (mainLoop w pfx account_id region dry_run)

/-- The run result `main` ends with (it always returns normally). -/
def main_run (w : World) (pfx account_id region : String) (dry_run : Bool) : RunResult :=
  match main_termination w pfx account_id region dry_run with
  | PyTermination.normalReturn r => r
  | PyTermination.unhandledException _ =>
    { aborted := true, discovered := none, counters := ⟨0, 0, 0, 0⟩ }

/-- CPython exit status of `if __name__ == "__main__": main()`:
0 when `main` returns (its value is discarded), nonzero only if an
exception escapes `main`. -/
def processExitCode : PyTermination → Nat
  | PyTermination.normalReturn _ => 0
  | PyTermination.unhandledException _ => 1

/-- The number of tags `main` attempts for one repository. -/
def rankLen (w : World) (repo : String) : Nat :=
  (get_last_three_tags (w.listImages repo)).length

/-! ### Properties -/

-- Basic facts about `addTag` folds.

theorem foldl_addTag_suffix (ts : List String) :
    ∀ acc : List String, ∃ s, ts.foldl addTag acc = acc ++ s := by
  induction ts with
  | nil => exact fun acc => ⟨[], by simp⟩
  | cons t ts ih =>
    intro acc
    rcases ih (addTag acc t) with ⟨s, hs⟩
    by_cases h : t ∈ acc
    · refine ⟨s, ?_⟩
      rw [List.foldl_cons, hs]
      simp [addTag, h]
    · refine ⟨t :: s, ?_⟩
      rw [List.foldl_cons, hs]
      simp [addTag, h]

theorem walkImages_suffix (images : List Image) :
    ∀ acc : List String, ∃ s, walkImages images acc = acc ++ s := by
  induction images with
  | nil => exact fun acc => ⟨[], by simp [walkImages]⟩
  | cons img rest ih =>
    intro acc
    rcases foldl_addTag_suffix (img.imageTags.getD []) acc with ⟨s₁, h₁⟩
    rcases ih ((img.imageTags.getD []).foldl addTag acc) with ⟨s₂, h₂⟩
    exact ⟨s₁ ++ s₂, by simp [walkImages] at h₂ ⊢; rw [h₂, h₁, List.append_assoc]⟩

theorem length_addTag (acc : List String) (t : String) :
    (addTag acc t).length = acc.length ∨ (addTag acc t).length = acc.length + 1 := by
  unfold addTag
  by_cases h : t ∈ acc <;> simp [h]

theorem nodup_addTag {acc : List String} (h : acc.Nodup) (t : String) :
    (addTag acc t).Nodup := by
  unfold addTag
  by_cases ht : t ∈ acc
  · simpa [ht]
  · simp [ht, List.nodup_append, h]

theorem mem_addTag (acc : List String) (t x : String) :
    x ∈ addTag acc t ↔ x ∈ acc ∨ x = t := by
  unfold addTag
  by_cases h : t ∈ acc
  · simp only [if_pos h]
    constructor
    · exact Or.inl
    · rintro (hx | rfl)
      · exact hx
      · exact h
  · simp [h]

theorem nodup_foldl_addTag (ts : List String) :
    ∀ acc : List String, acc.Nodup → (ts.foldl addTag acc).Nodup := by
  induction ts with
  | nil => exact fun _ h => h
  | cons t ts ih => exact fun acc h => ih _ (nodup_addTag h t)

theorem mem_foldl_addTag (ts : List String) :
    ∀ (acc : List String) (x : String),
      x ∈ ts.foldl addTag acc ↔ x ∈ acc ∨ x ∈ ts := by
  induction ts with
  | nil => simp
  | cons t ts ih =>
    intro acc x
    simp only [List.foldl_cons, ih, mem_addTag, List.mem_cons]
    tauto

theorem nodup_walkImages (images : List Image) :
    ∀ acc : List String, acc.Nodup → (walkImages images acc).Nodup := by
  induction images with
  | nil => exact fun _ h => h
  | cons img rest ih =>
    intro acc h
    exact ih _ (nodup_foldl_addTag _ _ h)

theorem mem_walkImages (images : List Image) :
    ∀ (acc : List String) (x : String),
      x ∈ walkImages images acc ↔ x ∈ acc ∨ x ∈ allTags images := by
  induction images with
  | nil => simp [walkImages, allTags]
  | cons img rest ih =>
    intro acc x
    simp only [walkImages, List.foldl_cons] at ih ⊢
    rw [ih, mem_foldl_addTag]
    simp [allTags]
    tauto

-- The collection loop with its `break`s equals `take 3` of the
-- unbounded dedup walk.

theorem collectFromTags_eq (ts : List String) :
    ∀ acc : List String, acc.length < 3 →
      collectFromTags ts acc = (ts.foldl addTag acc).take 3 := by
  induction ts with
  | nil =>
    intro acc h
    simp [collectFromTags, List.take_of_length_le (Nat.le_of_lt h)]
  | cons t ts ih =>
    intro acc h
    simp only [collectFromTags, List.foldl_cons]
    by_cases h3 : (addTag acc t).length = 3
    · rw [if_pos h3]
      rcases foldl_addTag_suffix ts (addTag acc t) with ⟨s, hs⟩
      rw [hs, ← h3, List.take_left]
    · rw [if_neg h3]
      have hlt : (addTag acc t).length < 3 := by
        rcases length_addTag acc t with he | he <;> omega
      exact ih _ hlt

theorem collectTags_eq (images : List Image) :
    ∀ acc : List String, acc.length < 3 →
      collectTags images acc = (walkImages images acc).take 3 := by
  induction images with
  | nil =>
    intro acc h
    simp [collectTags, walkImages, List.take_of_length_le (Nat.le_of_lt h)]
  | cons img rest ih =>
    intro acc h
    simp only [collectTags, walkImages, List.foldl_cons]
    rw [collectFromTags_eq (img.imageTags.getD []) acc h]
    by_cases h3 : (((img.imageTags.getD []).foldl addTag acc).take 3).length = 3
    · rw [if_pos h3]
      have hFlen : 3 ≤ ((img.imageTags.getD []).foldl addTag acc).length := by
        rw [List.length_take] at h3; omega
      rcases walkImages_suffix rest ((img.imageTags.getD []).foldl addTag acc) with ⟨s, hs⟩
      rw [show walkImages rest ((img.imageTags.getD []).foldl addTag acc)
            = rest.foldl (fun a img => (img.imageTags.getD []).foldl addTag a)
                ((img.imageTags.getD []).foldl addTag acc) from rfl] at hs
      rw [hs, List.take_append_of_le_length hFlen]
    · rw [if_neg h3]
      have hlt : (((img.imageTags.getD []).foldl addTag acc).take 3).length < 3 := by
        have := List.length_take 3 ((img.imageTags.getD []).foldl addTag acc)
        omega
      have hFsmall : ((img.imageTags.getD []).foldl addTag acc).length < 3 := by
        rw [List.length_take] at h3; omega
      rw [List.take_of_length_le (Nat.le_of_lt hFsmall)] at hlt ⊢
      exact ih _ hlt

theorem getLastThreeTagsBody_eq (images : List Image) :
    getLastThreeTagsBody images = (walkImages (sortByPushDesc images) []).take 3 := by
  unfold getLastThreeTagsBody
  by_cases h : images.isEmpty
  · have he : images = [] := List.isEmpty_iff.mp h
    subst he
    simp [sortByPushDesc, walkImages]
  · rw [if_neg h]
    exact collectTags_eq _ [] (by simp)

theorem nodup_getLastThreeTagsBody (images : List Image) :
    (getLastThreeTagsBody images).Nodup := by
  rw [getLastThreeTagsBody_eq]
  exact (List.take_sublist _ _).nodup (nodup_walkImages _ _ List.nodup_nil)

theorem length_walkImages_nil (images : List Image) :
    (walkImages images []).length = (allTags images).toFinset.card := by
  have hnd := nodup_walkImages images [] List.nodup_nil
  have hset : (walkImages images []).toFinset = (allTags images).toFinset := by
    ext x
    simp [List.mem_toFinset, mem_walkImages]
  rw [← List.toFinset_card_of_nodup hnd, hset]

theorem allTags_toFinset_sort (images : List Image) :
    (allTags (sortByPushDesc images)).toFinset = (allTags images).toFinset := by
  have hp : (sortByPushDesc images).Perm images := List.perm_insertionSort _ _
  ext x
  simp only [List.mem_toFinset, allTags, List.mem_flatten, List.mem_map]
  constructor
  · rintro ⟨l, ⟨img, himg, rfl⟩, hx⟩
    exact ⟨_, ⟨img, hp.mem_iff.mp himg, rfl⟩, hx⟩
  · rintro ⟨l, ⟨img, himg, rfl⟩, hx⟩
    exact ⟨_, ⟨img, hp.mem_iff.mpr himg, rfl⟩, hx⟩

theorem length_getLastThreeTagsBody (images : List Image) :
    (getLastThreeTagsBody images).length = min 3 (allTags images).toFinset.card := by
  rw [getLastThreeTagsBody_eq, List.length_take, length_walkImages_nil,
    allTags_toFinset_sort]

theorem length_get_last_three_tags_le (res : Except Unit (List Image)) :
    (get_last_three_tags res).length ≤ 3 := by
  cases res with
  | error e => simp [get_last_three_tags]
  | ok images =>
    have := length_getLastThreeTagsBody images
    simp only [get_last_three_tags]
    omega

theorem foldl_repoStep (pfx : String) (page : List (Option String)) :
    ∀ acc : List String,
      page.foldl (repoStep pfx) acc
        = acc ++ (page.map (fun r => r.getD "")).filter (fun n => startswith n pfx) := by
  induction page with
  | nil => simp
  | cons r page ih =>
    intro acc
    simp only [List.foldl_cons, List.map_cons, List.filter_cons]
    by_cases h : startswith (r.getD "") pfx
    · simp [repoStep, h, ih]
    · simp [repoStep, h, ih]

theorem get_repositories_with_prefix_eq (pages : List (List (Option String))) (pfx : String) :
    get_repositories_with_prefix pages pfx
      = ((pages.flatten).map (fun r => r.getD "")).filter (fun n => startswith n pfx) := by
  unfold get_repositories_with_prefix
  suffices h : ∀ acc : List String,
      pages.foldl (fun repos page => page.foldl (repoStep pfx) repos) acc
        = acc ++ ((pages.flatten).map (fun r => r.getD "")).filter (fun n => startswith n pfx) by
    simpa using h []
  induction pages with
  | nil => simp
  | cons page pages ih =>
    intro acc
    rw [List.foldl_cons, ih, foldl_repoStep]
    simp [List.filter_append, List.append_assoc]

-- Counter bookkeeping of the two loops.

theorem tagStep_counts (w : World) (repo account_id region : String) (dry_run : Bool)
    (c : Counters) (tag : String) :
    (tagStep w repo account_id region dry_run c tag).total_tags = c.total_tags + 1
    ∧ (tagStep w repo account_id region dry_run c tag).successes
        + (tagStep w repo account_id region dry_run c tag).failures
        = c.successes + c.failures + 1
    ∧ (tagStep w repo account_id region dry_run c tag).total_repos = c.total_repos := by
  rcases Bool.eq_false_or_eq_true
      (process_tag (w.tagEnv repo tag) repo tag account_id region dry_run).ok with h | h <;>
    simp [tagStep, h] <;> omega

theorem foldl_tagStep_counts (w : World) (repo account_id region : String) (dry_run : Bool)
    (tags : List String) :
    ∀ c : Counters,
      (tags.foldl (tagStep w repo account_id region dry_run) c).total_tags
        = c.total_tags + tags.length
      ∧ (tags.foldl (tagStep w repo account_id region dry_run) c).successes
          + (tags.foldl (tagStep w repo account_id region dry_run) c).failures
          = c.successes + c.failures + tags.length
      ∧ (tags.foldl (tagStep w repo account_id region dry_run) c).total_repos
          = c.total_repos := by
  induction tags with
  | nil => intro c; simp
  | cons tag tags ih =>
    intro c
    rcases ih (tagStep w repo account_id region dry_run c tag) with ⟨h1, h2, h3⟩
    rcases tagStep_counts w repo account_id region dry_run c tag with ⟨g1, g2, g3⟩
    refine ⟨?_, ?_, ?_⟩ <;> simp only [List.foldl_cons, h1, h2, h3, g1, g2, g3,
      List.length_cons] <;> omega

theorem processRepo_counts (w : World) (account_id region : String) (dry_run : Bool)
    (c : Counters) (repo : String) :
    (processRepo w account_id region dry_run c repo).total_tags
      = c.total_tags + rankLen w repo
    ∧ (processRepo w account_id region dry_run c repo).successes
        + (processRepo w account_id region dry_run c repo).failures
        = c.successes + c.failures + rankLen w repo
    ∧ (processRepo w account_id region dry_run c repo).total_repos
        = c.total_repos
          + (if (get_last_three_tags (w.listImages repo)).isEmpty then 0 else 1) := by
  unfold processRepo rankLen
  by_cases h : (get_last_three_tags (w.listImages repo)).isEmpty
  · have he : get_last_three_tags (w.listImages repo) = [] := List.isEmpty_iff.mp h
    simp [h, he]
  · rcases foldl_tagStep_counts w repo account_id region dry_run
        (get_last_three_tags (w.listImages repo))
        { c with total_repos := c.total_repos + 1 } with ⟨h1, h2, h3⟩
    rw [if_neg h]
    refine ⟨by rw [h1], by rw [h2], ?_⟩
    rw [h3]
    simp [h]

theorem foldl_processRepo_counts (w : World) (account_id region : String) (dry_run : Bool)
    (repos : List String) :
    ∀ c : Counters,
      (repos.foldl (processRepo w account_id region dry_run) c).total_tags
        = c.total_tags + (repos.map (rankLen w)).sum
      ∧ (repos.foldl (processRepo w account_id region dry_run) c).successes
          + (repos.foldl (processRepo w account_id region dry_run) c).failures
          = c.successes + c.failures + (repos.map (rankLen w)).sum
      ∧ (repos.foldl (processRepo w account_id region dry_run) c).total_repos
          = c.total_repos
            + (repos.filter
                (fun repo => !(get_last_three_tags (w.listImages repo)).isEmpty)).length := by
  induction repos with
  | nil => intro c; simp
  | cons repo repos ih =>
    intro c
    rcases ih (processRepo w account_id region dry_run c repo) with ⟨h1, h2, h3⟩
    rcases processRepo_counts w account_id region dry_run c repo with ⟨g1, g2, g3⟩
    refine ⟨?_, ?_, ?_⟩
    · simp only [List.foldl_cons, h1, g1, List.map_cons, List.sum_cons]
      omega
    · simp only [List.foldl_cons, h2, g2, List.map_cons, List.sum_cons]
      omega
    · simp only [List.foldl_cons, h3, g3, List.filter_cons]
      by_cases h : (get_last_three_tags (w.listImages repo)).isEmpty
      · simp only [h]
        simp
      · simp only [h]
        simp
        omega

-- Dry-run behaviour of the loops.

theorem process_tag_dry (env : TagEnv) (repo_name tag account_id region : String) :
    process_tag env repo_name tag account_id region true
      = { ok := true, reason := "dry-run",
          uri := image_uri account_id region repo_name tag,
          pullAttempted := false, deleteAttempted := false, pushAttempted := false } := rfl

theorem tagStep_dry (w : World) (repo account_id region : String)
    (c : Counters) (tag : String) :
    tagStep w repo account_id region true c tag
      = { c with total_tags := c.total_tags + 1, successes := c.successes + 1 } := rfl

theorem foldl_tagStep_dry (w : World) (repo account_id region : String)
    (tags : List String) :
    ∀ c : Counters,
      (tags.foldl (tagStep w repo account_id region true) c).failures = c.failures
      ∧ (tags.foldl (tagStep w repo account_id region true) c).successes
          = c.successes + tags.length := by
  induction tags with
  | nil => intro c; simp
  | cons tag tags ih =>
    intro c
    rcases ih (tagStep w repo account_id region true c tag) with ⟨h1, h2⟩
    constructor
    · rw [List.foldl_cons, h1, tagStep_dry]
    · rw [List.foldl_cons, h2, tagStep_dry]
      simp
      omega

theorem processRepo_dry (w : World) (account_id region : String)
    (c : Counters) (repo : String) :
    (processRepo w account_id region true c repo).failures = c.failures
    ∧ (processRepo w account_id region true c repo).successes
        = c.successes + rankLen w repo := by
  unfold processRepo rankLen
  by_cases h : (get_last_three_tags (w.listImages repo)).isEmpty
  · have he : get_last_three_tags (w.listImages repo) = [] := List.isEmpty_iff.mp h
    simp [h, he]
  · rw [if_neg h]
    rcases foldl_tagStep_dry w repo account_id region
        (get_last_three_tags (w.listImages repo))
        { c with total_repos := c.total_repos + 1 } with ⟨h1, h2⟩
    exact ⟨by rw [h1], by rw [h2]⟩

theorem foldl_processRepo_dry (w : World) (account_id region : String)
    (repos : List String) :
    ∀ c : Counters,
      (repos.foldl (processRepo w account_id region true) c).failures = c.failures
      ∧ (repos.foldl (processRepo w account_id region true) c).successes
          = c.successes + (repos.map (rankLen w)).sum := by
  induction repos with
  | nil => intro c; simp
  | cons repo repos ih =>
    intro c
    rcases ih (processRepo w account_id region true c repo) with ⟨h1, h2⟩
    rcases processRepo_dry w account_id region c repo with ⟨g1, g2⟩
    constructor
    · rw [List.foldl_cons, h1, g1]
    · rw [List.foldl_cons, h2, g2]
      simp
      omega

theorem sum_rankLen_filter (w : World) (repos : List String) :
    ((repos.filter
        (fun repo => !(get_last_three_tags (w.listImages repo)).isEmpty)).map
          (rankLen w)).sum
      = (repos.map (rankLen w)).sum := by
  induction repos with
  | nil => rfl
  | cons repo repos ih =>
    by_cases h : (get_last_three_tags (w.listImages repo)).isEmpty
    · have h0 : rankLen w repo = 0 := by
        unfold rankLen
        rw [List.isEmpty_iff.mp h]
        rfl
      simp [List.filter_cons, h, ih, h0]
    · simp [List.filter_cons, h, ih]

theorem main_run_dry (w : World) (pfx account_id region : String) :
    main_run w pfx account_id region true = mainLoop w pfx account_id region true := rfl

theorem mainLoop_counters (w : World) (pfx account_id region : String) (dry_run : Bool) :
    (mainLoop w pfx account_id region dry_run).counters
      = ( get_repositories_with_prefix w.pages pfx).foldl
          (processRepo w account_id region dry_run) ⟨0, 0, 0, 0⟩ := rfl

theorem main_run_login_failed (w : World) (pfx account_id region : String)
    (h : w.loginOk = false) :
    main_run w pfx account_id region false
      = { aborted := true, discovered := none, counters := ⟨0, 0, 0, 0⟩ } := by
  simp [main_run, main_termination, docker_login, h]

/-! ### Claims -/

/-- C1: for every repository image set, tag ranking
(`get_last_three_tags`) returns the first 3 distinct tag names of the
dedup walk over the images in descending push-time order (each image's
tags in their given order) — so it stops as soon as 3 distinct names
are gathered, even mid-image —, contains no duplicate tag names, and
its length is exactly `min 3 (number of distinct tag names)`. -/
theorem c1_tag_ranking_exact (images : List Image) :
    get_last_three_tags (Except.ok images)
        = (walkImages (sortByPushDesc images) []).take 3
    ∧ (get_last_three_tags (Except.ok images)).Nodup
    ∧ (get_last_three_tags (Except.ok images)).length
        = min 3 (allTags images).toFinset.card :=
  ⟨getLastThreeTagsBody_eq images, nodup_getLastThreeTagsBody images,
    length_getLastThreeTagsBody images⟩

/-- C2: in live (non-dry-run) mode `process_tag` is strictly
sequential and gated: a pull failure yields `(false, "pull-failed")`
with neither delete nor push attempted; a delete failure after a
successful pull yields `(false, "delete-failed")` with push not
attempted; a push failure yields `(false, "push-failed")`; and when
all three steps succeed it yields `(true, "ok")`. -/
theorem c2_live_mode_gated (env : TagEnv) (repo_name tag account_id region : String) :
    (env.pullOk = false →
      (process_tag env repo_name tag account_id region false).ok = false
      ∧ (process_tag env repo_name tag account_id region false).reason = "pull-failed"
      ∧ (process_tag env repo_name tag account_id region false).deleteAttempted = false
      ∧ (process_tag env repo_name tag account_id region false).pushAttempted = false)
    ∧ (env.pullOk = true → env.deleteOk = false →
      (process_tag env repo_name tag account_id region false).ok = false
      ∧ (process_tag env repo_name tag account_id region false).reason = "delete-failed"
      ∧ (process_tag env repo_name tag account_id region false).pushAttempted = false)
    ∧ (env.pullOk = true → env.deleteOk = true → env.pushOk = false →
      (process_tag env repo_name tag account_id region false).ok = false
      ∧ (process_tag env repo_name tag account_id region false).reason = "push-failed")
    ∧ (env.pullOk = true → env.deleteOk = true → env.pushOk = true →
      (process_tag env repo_name tag account_id region false).ok = true
      ∧ (process_tag env repo_name tag account_id region false).reason = "ok") := by
  rcases env with ⟨p, d, q⟩
  cases p <;> cases d <;> cases q <;> refine ⟨?_, ?_, ?_, ?_⟩ <;> intros <;>
    simp_all [process_tag]

/-- Witness for C2: each of the four live-mode branches at a concrete
input. -/
theorem c2_live_mode_gated_witness :
    (process_tag ⟨false, true, true⟩ "github/app" "v1" "123456789012" "us-east-1" false).reason
        = "pull-failed"
    ∧ (process_tag ⟨true, false, true⟩ "github/app" "v1" "123456789012" "us-east-1" false).reason
        = "delete-failed"
    ∧ (process_tag ⟨true, true, false⟩ "github/app" "v1" "123456789012" "us-east-1" false).reason
        = "push-failed"
    ∧ (process_tag ⟨true, true, true⟩ "github/app" "v1" "123456789012" "us-east-1" false).ok
        = true :=
  ⟨((c2_live_mode_gated ⟨false, true, true⟩ "github/app" "v1" "123456789012" "us-east-1").1
      rfl).2.1,
   ((c2_live_mode_gated ⟨true, false, true⟩ "github/app" "v1" "123456789012" "us-east-1").2.1
      rfl rfl).2.1,
   ((c2_live_mode_gated ⟨true, true, false⟩ "github/app" "v1" "123456789012" "us-east-1").2.2.1
      rfl rfl rfl).2,
   ((c2_live_mode_gated ⟨true, true, true⟩ "github/app" "v1" "123456789012" "us-east-1").2.2.2
      rfl rfl rfl).1⟩

/-- C3: in dry-run mode `process_tag` performs no external pull,
delete or push call and returns success with reason `"dry-run"` for
every tag; consequently a whole dry run counts every attempted tag as
a success and its failure counter is zero. -/
theorem c3_dry_run_frame (env : TagEnv) (repo_name tag account_id region : String)
    (w : World) (pfx aid reg : String) :
    (process_tag env repo_name tag account_id region true).ok = true
    ∧ (process_tag env repo_name tag account_id region true).reason = "dry-run"
    ∧ (process_tag env repo_name tag account_id region true).pullAttempted = false
    ∧ (process_tag env repo_name tag account_id region true).deleteAttempted = false
    ∧ (process_tag env repo_name tag account_id region true).pushAttempted = false
    ∧ (main_run w pfx aid reg true).counters.failures = 0
    ∧ (main_run w pfx aid reg true).counters.successes
        = (main_run w pfx aid reg true).counters.total_tags := by
  refine ⟨rfl, rfl, rfl, rfl, rfl, ?_, ?_⟩
  · rw [main_run_dry, mainLoop_counters]
    exact (foldl_processRepo_dry w aid reg
      ( get_repositories_with_prefix w.pages pfx) ⟨0, 0, 0, 0⟩).1
  · rw [main_run_dry, mainLoop_counters]
    rcases foldl_processRepo_dry w aid reg
      ( get_repositories_with_prefix w.pages pfx) ⟨0, 0, 0, 0⟩ with ⟨_, h2⟩
    rcases foldl_processRepo_counts w aid reg true
      ( get_repositories_with_prefix w.pages pfx) ⟨0, 0, 0, 0⟩ with ⟨h1, _, _⟩
    rw [h1, h2]

/-- C4: discovery (`get_repositories_with_prefix`) walks every page of
the repository listing and returns exactly the names that start with
the given name-prefix string (exact, case-sensitive match);
non-matching names are excluded, and when nothing matches the result
is the empty list, not an error. -/
theorem c4_discovery_exact (pages : List (List (Option String))) (pfx : String) :
    get_repositories_with_prefix pages pfx
      = ((pages.flatten).map (fun r => r.getD "")).filter (fun n => startswith n pfx)
    ∧ (∀ n ∈ get_repositories_with_prefix pages pfx, startswith n pfx = true)
    ∧ (∀ r ∈ pages.flatten, startswith (r.getD "") pfx = true →
        r.getD "" ∈ get_repositories_with_prefix pages pfx)
    ∧ ((∀ r ∈ pages.flatten, ¬ startswith (r.getD "") pfx = true) →
        get_repositories_with_prefix pages pfx = []) := by
  refine ⟨get_repositories_with_prefix_eq pages pfx, ?_, ?_, ?_⟩
  · intro n hn
    rw [get_repositories_with_prefix_eq] at hn
    exact (List.mem_filter.mp hn).2
  · intro r hr hs
    rw [get_repositories_with_prefix_eq]
    exact List.mem_filter.mpr ⟨List.mem_map_of_mem _ hr, hs⟩
  · intro h
    rw [get_repositories_with_prefix_eq]
    refine List.filter_eq_nil_iff.mpr ?_
    intro a ha
    rcases List.mem_map.mp ha with ⟨r, hr, rfl⟩
    simpa using h r hr

/-- Witness for C4: a matching name is returned, a matching name from
a later page is returned, and a listing with no match yields `[]`. -/
theorem c4_discovery_exact_witness :
    startswith "github/a" "github/" = true
    ∧ "github/c" ∈ get_repositories_with_prefix
        [[some "github/a", some "other/b"], [some "github/c"]] "github/"
    ∧ get_repositories_with_prefix [[some "other/b"]] "github/" = [] :=
  ⟨(c4_discovery_exact [[some "github/a", some "other/b"], [some "github/c"]]
      "github/").2.1 "github/a" (by decide),
   (c4_discovery_exact [[some "github/a", some "other/b"], [some "github/c"]]
      "github/").2.2.1 (some "github/c") (by decide) (by decide),
   (c4_discovery_exact [[some "other/b"]] "github/").2.2.2 (by decide)⟩

/-- C5: if `docker_login` fails in non-dry-run mode, `main` aborts
before any repository is processed: discovery never runs and every
counter (repositories, tags, successes, failures) is zero. -/
theorem c5_login_failure_aborts (w : World) (pfx account_id region : String)
    (h : w.loginOk = false) :
    main_run w pfx account_id region false
      = { aborted := true, discovered := none, counters := ⟨0, 0, 0, 0⟩ } :=
  main_run_login_failed w pfx account_id region h

/-- Witness for C5: a concrete world whose login fails. -/
theorem c5_login_failure_aborts_witness :
    main_run
        ⟨false, [[some "github/a"]],
          fun _ => Except.ok [⟨some 7, some ["v1"]⟩],
          fun _ _ => ⟨true, true, true⟩⟩
        "github/" "123456789012" "us-east-1" false
      = { aborted := true, discovered := none, counters := ⟨0, 0, 0, 0⟩ } :=
  c5_login_failure_aborts
    ⟨false, [[some "github/a"]],
      fun _ => Except.ok [⟨some 7, some ["v1"]⟩],
      fun _ _ => ⟨true, true, true⟩⟩
    "github/" "123456789012" "us-east-1" rfl

/-- C6: tag ranking returns `[]`, not an error, for a registry
failure (caught `BotoCoreError`/`ClientError`), for an empty image
list, and for images carrying no tag names; and in `main`'s loop a
repository whose listing failed is skipped (contributing nothing)
while the run continues with the remaining repositories. -/
theorem c6_ranking_failure_and_empty :
    (∀ e : Unit, get_last_three_tags (Except.error e) = [])
    ∧ get_last_three_tags (Except.ok []) = []
    ∧ (∀ images : List Image, (∀ img ∈ images, img.imageTags.getD [] = []) →
        get_last_three_tags (Except.ok images) = [])
    ∧ (∀ (w : World) (account_id region : String) (dry_run : Bool)
        (c : Counters) (repo : String) (rest : List String),
        w.listImages repo = Except.error () →
        (repo :: rest).foldl (processRepo w account_id region dry_run) c
          = rest.foldl (processRepo w account_id region dry_run) c) := by
  refine ⟨fun _ => rfl, rfl, ?_, ?_⟩
  · intro images hall
    have hnil : allTags images = [] := by
      unfold allTags
      refine List.flatten_eq_nil_iff.mpr ?_
      intro x hx
      rcases List.mem_map.mp hx with ⟨img, himg, rfl⟩
      exact hall img himg
    have hlen := length_getLastThreeTagsBody images
    rw [hnil] at hlen
    simp only [List.toFinset_nil, Finset.card_empty, Nat.min_zero] at hlen
    exact List.length_eq_zero.mp hlen
  · intro w account_id region dry_run c repo rest h
    have htags : get_last_three_tags (w.listImages repo) = [] := by
      rw [h]
      rfl
    have hskip : processRepo w account_id region dry_run c repo = c := by
      simp [processRepo, htags]
    rw [List.foldl_cons, hskip]

/-- Witness for C6: a failed listing, an image with no tag list, and a
skipped repository in the loop, all at concrete inputs. -/
theorem c6_ranking_failure_and_empty_witness :
    get_last_three_tags (Except.error ()) = []
    ∧ get_last_three_tags (Except.ok [⟨some 5, none⟩]) = []
    ∧ ["github/a"].foldl
        (processRepo
          ⟨true, [], fun _ => Except.error (), fun _ _ => ⟨true, true, true⟩⟩
          "123456789012" "us-east-1" false)
        ⟨0, 0, 0, 0⟩ = ⟨0, 0, 0, 0⟩ :=
  ⟨c6_ranking_failure_and_empty.1 (),
   c6_ranking_failure_and_empty.2.2.1 [⟨some 5, none⟩] (by decide),
   c6_ranking_failure_and_empty.2.2.2
     ⟨true, [], fun _ => Except.error (), fun _ _ => ⟨true, true, true⟩⟩
     "123456789012" "us-east-1" false ⟨0, 0, 0, 0⟩ "github/a" [] rfl⟩

/-- C7: the process always exits with status 0: `main` returns
normally both on completion (however many per-tag operations failed)
and on the caught authentication failure, and `main()`'s return value
is discarded by the `__main__` guard. -/
theorem c7_exit_status_zero (w : World) (pfx account_id region : String)
    (dry_run : Bool) :
    processExitCode (main_termination w pfx account_id region dry_run) = 0 := by
  unfold main_termination
  rcases Bool.eq_false_or_eq_true dry_run with hd | hd <;>
    rcases Bool.eq_false_or_eq_true w.loginOk with hl | hl <;>
      simp [hd, hl, docker_login, processExitCode]

/-- C8: the image reference used by the refresh worker is always
`{account_id}.dkr.ecr.{region}.amazonaws.com/{repo_name}:{tag_name}`. -/
theorem c8_image_reference (env : TagEnv) (repo_name tag account_id region : String)
    (dry_run : Bool) :
    (process_tag env repo_name tag account_id region dry_run).uri
      = account_id ++ ".dkr.ecr." ++ region ++ ".amazonaws.com/"
          ++ repo_name ++ ":" ++ tag := by
  rcases env with ⟨p, d, q⟩
  cases dry_run <;> cases p <;> cases d <;> cases q <;> rfl

/-- C9: at the summary, tags attempted = successes + failures;
repositories touched = the number of discovered repositories whose
ranking is non-empty; tags attempted = the sum over those repositories
of the length of their ranked tag list; and every ranked list has
length at most 3. -/
theorem c9_summary_counter_invariants (w : World) (pfx account_id region : String)
    (dry_run : Bool) :
    (mainLoop w pfx account_id region dry_run).counters.total_tags
      = (mainLoop w pfx account_id region dry_run).counters.successes
        + (mainLoop w pfx account_id region dry_run).counters.failures
    ∧ (mainLoop w pfx account_id region dry_run).counters.total_repos
      = (( get_repositories_with_prefix w.pages pfx).filter
          (fun repo => !(get_last_three_tags (w.listImages repo)).isEmpty)).length
    ∧ (mainLoop w pfx account_id region dry_run).counters.total_tags
      = ((( get_repositories_with_prefix w.pages pfx).filter
          (fun repo => !(get_last_three_tags (w.listImages repo)).isEmpty)).map
            (rankLen w)).sum
    ∧ (∀ repo : String, rankLen w repo ≤ 3) := by
  rcases foldl_processRepo_counts w account_id region dry_run
      ( get_repositories_with_prefix w.pages pfx) ⟨0, 0, 0, 0⟩ with ⟨h1, h2, h3⟩
  simp only [Nat.zero_add] at h1 h2 h3
  rw [mainLoop_counters]
  refine ⟨by omega, by rw [h3], ?_, ?_⟩
  · rw [sum_rankLen_filter, h1]
  · intro repo
    exact length_get_last_three_tags_le (w.listImages repo)

/-- C10: an image record with no push timestamp gets sort key 0, so
the sorted walk is descending on that key, sorting is a permutation,
and any image whose timestamp is a positive epoch value is walked
before any image with a missing timestamp; an image record with no tag
list contributes no tag names to the collection loop. -/
theorem c10_missing_fields (images : List Image) :
    (sortByPushDesc images).Pairwise pushDescR
    ∧ (sortByPushDesc images).Perm images
    ∧ (∀ img : Image, img.imagePushedAt = none → pushKey img = 0)
    ∧ (∀ (i j : Nat) (hi : i < (sortByPushDesc images).length)
        (hj : j < (sortByPushDesc images).length),
        ((sortByPushDesc images).get ⟨i, hi⟩).imagePushedAt = none →
        ∀ t : Nat, ((sortByPushDesc images).get ⟨j, hj⟩).imagePushedAt = some t →
        0 < t → j < i)
    ∧ (∀ (img : Image) (rest : List Image) (acc : List String),
        img.imageTags = none → acc.length ≠ 3 →
        collectTags (img :: rest) acc = collectTags rest acc) := by
  have hpair : (sortByPushDesc images).Pairwise pushDescR :=
    List.sorted_insertionSort pushDescR images
  refine ⟨hpair, List.perm_insertionSort pushDescR images, ?_, ?_, ?_⟩
  · intro img h
    simp [pushKey, h]
  · intro i j hi hj hnone t hsome ht
    rcases Nat.lt_trichotomy j i with h | h | h
    · exact h
    · exfalso
      subst h
      have e : (sortByPushDesc images).get ⟨j, hj⟩
          = (sortByPushDesc images).get ⟨j, hi⟩ := rfl
      rw [e, hnone] at hsome
      exact Option.noConfusion hsome
    · exfalso
      have hr : pushDescR ((sortByPushDesc images).get ⟨i, hi⟩)
          ((sortByPushDesc images).get ⟨j, hj⟩) :=
        List.pairwise_iff_get.mp hpair ⟨i, hi⟩ ⟨j, hj⟩ h
      unfold pushDescR at hr
      have e1 : pushKey ((sortByPushDesc images).get ⟨i, hi⟩) = 0 := by
        unfold pushKey
        rw [hnone]
        rfl
      have e2 : pushKey ((sortByPushDesc images).get ⟨j, hj⟩) = t := by
        unfold pushKey
        rw [hsome]
        rfl
      rw [e1, e2] at hr
      omega
  · intro img rest acc h hne
    simp [collectTags, collectFromTags, h, hne]

/-- Witness for C10: concrete images with a missing timestamp and a
missing tag list. -/
theorem c10_missing_fields_witness :
    pushKey ⟨none, some ["a"]⟩ = 0
    ∧ (0 : Nat) < 1
    ∧ collectTags [(⟨none, none⟩ : Image)] ["x"] = collectTags [] ["x"] :=
  ⟨(c10_missing_fields []).2.2.1 ⟨none, some ["a"]⟩ rfl,
   (c10_missing_fields [⟨none, some ["a"]⟩, ⟨some 5, some ["b"]⟩]).2.2.2.1 1 0
     (by decide) (by decide) (by decide) 5 (by decide) (by decide),
   (c10_missing_fields []).2.2.2.2 ⟨none, none⟩ [] ["x"] rfl (by decide)⟩
